import Mathlib

/-!
# Verification of the BIST-30 heatmap core (app.py)

A shallow embedding of the return-computation and data-assembly pipeline of
the heatmap application, together with proofs of its specified properties.

Modelling conventions:
* A daily close series (a pandas Series indexed by dates) is a list of pairs
  (date, close): the date is a day number (an integer), the close is a
  rational, with a missing close (NaN) modelled as `none`.  The data model
  guarantees the gateway produces sequences ordered by date ascending with
  unique dates; theorems carry that as the `SortedDates` hypothesis, under
  which the pandas slice-and-tail selection coincides with the embedding.
* yfinance dictionaries (`fast_info`, `.info`) become structures of optional
  rationals; Python truthiness of a field (`not fi.get(k)`) is `optTruthy`:
  a value is truthy when present and nonzero.
* A raised exception in a fetch step is modelled as `none` at the call site
  (`Option.getD` supplies the value the except-branch produces).  For the
  `.info` fallback, an exception leaves the dictionary unchanged with a falsy
  market-cap entry; this is outcome-equivalent to merging all-absent fields,
  which is how it is modelled here.
* `np.nan` in the assembled MarketCap column is modelled as `none`, so the
  row filter `dropna` becomes an `Option.isSome` test.
-/

namespace StockHeatmap

/-- `series.dropna()` on a close series: keep only the entries with a
present close value (line 123/125 of app.py). -/
def dropna (series : List (Int × Option ℚ)) : List (Int × ℚ) :=
  series.filterMap (fun p =>
    match p.2 with
    | some c => some (p.1, c)
    | none => none)

/-- A series with no missing values, injected into the raw-series type. -/
def liftSeries (s : List (Int × ℚ)) : List (Int × Option ℚ) :=
  s.map (fun p => (p.1, some p.2))

/-- The data-model ordering invariant on a close series: dates strictly
ascending (hence unique). -/
def SortedDates (s : List (Int × ℚ)) : Prop :=
  List.Chain' (fun p q : Int × ℚ => p.1 < q.1) s

instance instSortedDatesDec : (s : List (Int × ℚ)) → Decidable (SortedDates s)
  | [] => isTrue List.chain'_nil
  | [p] => isTrue (List.chain'_singleton p)
  | p :: q :: t =>
    match Int.decLt p.1 q.1, instSortedDatesDec (q :: t) with
    | isTrue h1, isTrue h2 => isTrue (List.chain'_cons.mpr ⟨h1, h2⟩)
    | isFalse h1, _ => isFalse (fun hc => h1 (List.chain'_cons.mp hc).1)
    | _, isFalse h2 => isFalse (fun hc => h2 (List.chain'_cons.mp hc).2)

instance : IsTrans (Int × ℚ) (fun p q : Int × ℚ => p.1 < q.1) :=
  ⟨fun _ _ _ h1 h2 => lt_trans h1 h2⟩

/-- `compute_return` (app.py lines 119-139).
Drop missing entries; if nothing is left return `none`.  Otherwise let
`lastDate` be the maximum date, `targetDate := lastDate - daysBack`; select
the last entry at a date at or before `targetDate` (the pandas
`series.loc[:target_date].tail(1)` on a date-ascending index); if there is
none, or the selected past close is zero, return `none`; otherwise return
`last/past - 1` where `last` is the close at `lastDate`
(`series.loc[last_date]`). -/
def computeReturn (series : List (Int × Option ℚ)) (daysBack : ℕ) : Option ℚ :=
  let s := dropna series
  match (s.map Prod.fst).max? with
  | none => none
  | some lastDate =>
    let targetDate : Int := lastDate - (daysBack : Int)
    match (s.filter (fun p => decide (p.1 ≤ targetDate))).getLast? with
    | none => none
    | some past =>
      match s.find? (fun p => decide (p.1 = lastDate)) with
      | none => none
      | some lastEntry =>
        if past.2 = 0 then none else some (lastEntry.2 / past.2 - 1)

/-- The fields of `t.fast_info` the app reads (absent field = `none`). -/
structure FastInfo where
  market_cap : Option ℚ
  shares_outstanding : Option ℚ
  last_price : Option ℚ
deriving DecidableEq

/-- The fields of `t.info` the app reads (absent field = `none`). -/
structure InfoExtra where
  marketCap : Option ℚ
  sharesOutstanding : Option ℚ
  regularMarketPrice : Option ℚ
deriving DecidableEq

/-- Python truthiness of an optional numeric field: true when the field is
present with a nonzero value (`fi.get(k)` is falsy for absent, None and 0). -/
def optTruthy : Option ℚ → Bool
  | none => false
  | some x => decide (x ≠ 0)

/-- The dictionary produced when every fetch for a symbol fails. -/
def emptyFastInfo : FastInfo :=
  ⟨none, none, none⟩

/-- The `.info` fields when that fetch fails (see the modelling note). -/
def emptyInfoExtra : InfoExtra :=
  ⟨none, none, none⟩

/-- `fetch_fast_info` (app.py lines 96-116), given the fetched `fast_info`
fields and the fetched `.info` fields: when the fast market-cap entry is
falsy, overwrite it with the info market cap and fill in falsy shares /
last-price entries from the info fields. -/
def fetchFastInfo (fast : FastInfo) (extra : InfoExtra) : FastInfo :=
  if optTruthy fast.market_cap then fast
  else
    { market_cap := extra.marketCap
      shares_outstanding :=
        if optTruthy fast.shares_outstanding then fast.shares_outstanding
        else extra.sharesOutstanding
      last_price :=
        if optTruthy fast.last_price then fast.last_price
        else extra.regularMarketPrice }

/-- The market-cap computation of the rows loop (app.py lines 163-176):
`mcap = fi.get("market_cap")`; when falsy, fall back to
`shares × last_price` when both are truthy; finally the row stores
`mcap if mcap and mcap > 0 else np.nan`. -/
def rowsMcap (fi : FastInfo) : Option ℚ :=
  let mcap : Option ℚ :=
    if optTruthy fi.market_cap then fi.market_cap
    else if optTruthy fi.shares_outstanding && optTruthy fi.last_price then
      some (fi.shares_outstanding.getD 0 * fi.last_price.getD 0)
    else fi.market_cap
  match mcap with
  | some c => if 0 < c then some c else none
  | none => none

/-- The full market-cap resolution for one symbol: the rows loop applied to
the dictionary `fetch_fast_info` returns. -/
def resolvedCap (fast : FastInfo) (extra : InfoExtra) : Option ℚ :=
  rowsMcap (fetchFastInfo fast extra)

/-- The raw per-symbol fetch results feeding the rows loop.  `none` in a
fetch field models the corresponding exception path: a failed close-column
extraction yields an empty series (lines 149-156), a failed `fast_info` an
empty dictionary (lines 101-104), a failed `.info` no extra fields
(lines 107-115). -/
structure FetchedSymbol where
  sym : String
  name : String
  closeFetch : Option (List (Int × Option ℚ))
  fastFetch : Option FastInfo
  infoFetch : Option InfoExtra
deriving DecidableEq

/-- One assembled row (app.py lines 172-177): the MarketCap column holds
`none` where the source stores `np.nan`. -/
structure Row where
  ticker : String
  name : String
  ret : Option ℚ
  mcap : Option ℚ
deriving DecidableEq

/-- The body of the rows loop for one symbol (app.py lines 147-177). -/
def rowOf (lb : ℕ) (d : FetchedSymbol) : Row :=
  { ticker := d.sym
    name := d.name
    ret := computeReturn (d.closeFetch.getD []) lb
    mcap := resolvedCap (d.fastFetch.getD emptyFastInfo) (d.infoFetch.getD emptyInfoExtra) }

/-- The rows loop over the whole batch. -/
def assembleRows (ds : List FetchedSymbol) (lb : ℕ) : List Row :=
  ds.map (rowOf lb)

/-- `valid = df.dropna(subset=["Return", "MarketCap"])` (app.py line 183):
keep the rows whose return and market cap are both present. -/
def validRows (ds : List FetchedSymbol) (lb : ℕ) : List Row :=
  (assembleRows ds lb).filter (fun r => r.ret.isSome && r.mcap.isSome)

/-- The Return column of `valid` (every kept row has a present return). -/
def validReturns (ds : List FetchedSymbol) (lb : ℕ) : List ℚ :=
  (validRows ds lb).filterMap (fun r => r.ret)

/-- `float(np.nanmax(np.abs(valid["Return"].values)))` (app.py line 190).
All absolute values are nonnegative, so on the nonempty lists the app
reaches this with, the fold from 0 is exactly the maximum. -/
def maxAbsReturn (rs : List ℚ) : ℚ :=
  rs.foldl (fun acc r => max acc |r|) 0

/-- The symmetric color-scale bound (app.py lines 190-193): the maximum
absolute return, floored away from zero at 0.01. -/
def colorBound (rs : List ℚ) : ℚ :=
  if maxAbsReturn rs = 0 then 1 / 100 else maxAbsReturn rs

/-- What the request does after assembly (app.py lines 185-220): an empty
valid set shows the warning and stops; otherwise the chart is rendered from
the valid rows and the color bound. -/
inductive RenderOutcome where
  | emptyMessage : RenderOutcome
  | chart : List Row → ℚ → RenderOutcome
deriving DecidableEq

/-- The post-assembly control flow (app.py lines 185-220). -/
def render (ds : List FetchedSymbol) (lb : ℕ) : RenderOutcome :=
  if (validRows ds lb).isEmpty then RenderOutcome.emptyMessage
  else RenderOutcome.chart (validRows ds lb) (colorBound (validReturns ds lb))

/-- First-present choice between two optional fields (used only by the
spec-side definitions below). -/
def fieldOr (a b : Option ℚ) : Option ℚ :=
  match a with
  | some x => some x
  | none => b

/-- Spec-side helper: a candidate value when present and positive, else an
alternative. -/
def posOr (v alt : Option ℚ) : Option ℚ :=
  match v with
  | some c => if 0 < c then some c else alt
  | none => alt

/-- Spec-side helper: shares × price when both are present and positive. -/
def sharesTimesPrice (shares price : Option ℚ) : Option ℚ :=
  match shares, price with
  | some s, some p => if 0 < s ∧ 0 < p then some (s * p) else none
  | _, _ => none

/-- The market-cap resolution exactly as claim C3 states it: (1) the fast
field if present and positive; (2) else the info field if present and
positive; (3) else shares × last price if both present and positive;
(4) else unavailable — with a present non-positive value at an earlier step
never stopping the later fallbacks.  Spec-side definition, for comparison
with `resolvedCap`. -/
def specMarketCap (fast : FastInfo) (extra : InfoExtra) : Option ℚ :=
  posOr fast.market_cap
    (posOr extra.marketCap
      (sharesTimesPrice
        (fieldOr fast.shares_outstanding extra.sharesOutstanding)
        (fieldOr fast.last_price extra.regularMarketPrice)))

/-- The amended resolution rule: the cascade selects on present-and-nonzero
fields (a present zero or absent field falls through; a present negative
value is selected and then rejected), shares and price fall back from the
fast fields to the info fields, and the selected value is emitted only when
strictly positive.  Spec-side definition, for comparison with
`resolvedCap`. -/
def amendedCap (fast : FastInfo) (extra : InfoExtra) : Option ℚ :=
  let cand : Option ℚ :=
    if optTruthy fast.market_cap then fast.market_cap
    else if optTruthy extra.marketCap then extra.marketCap
    else
      let s := if optTruthy fast.shares_outstanding then fast.shares_outstanding
               else extra.sharesOutstanding
      let p := if optTruthy fast.last_price then fast.last_price
               else extra.regularMarketPrice
      if optTruthy s && optTruthy p then some (s.getD 0 * p.getD 0) else none
  match cand with
  | some c => if 0 < c then some c else none
  | none => none

/-- A concrete symbol whose fetches all succeed: a two-day close series and
a fast market cap of 5. -/
def sampleSymbol : FetchedSymbol :=
  ⟨"AKBNK.IS", "Akbank", some [(0, some 1), (1, some 2)], some ⟨some 5, none, none⟩, none⟩

/-- A concrete symbol whose fetches all fail. -/
def failedSymbol : FetchedSymbol :=
  ⟨"FAIL.IS", "Failed", none, none, none⟩

/-! ## Helper lemmas -/

theorem dropna_liftSeries (s : List (Int × ℚ)) : dropna (liftSeries s) = s := by
  induction s with
  | nil => rfl
  | cons a t ih => simpa [dropna, liftSeries, List.filterMap_cons] using ih

theorem int_max?_eq_some_iff {xs : List ℤ} {a : ℤ} :
    xs.max? = some a ↔ a ∈ xs ∧ ∀ b ∈ xs, b ≤ a :=
  @List.max?_eq_some_iff ℤ a _ _ ⟨by intro a b h1 h2; exact le_antisymm h1 h2⟩
    (fun a => le_refl a) max_choice (fun _ _ _ => max_le_iff) xs

theorem int_min?_eq_some_iff {xs : List ℤ} {a : ℤ} :
    xs.min? = some a ↔ a ∈ xs ∧ ∀ b ∈ xs, a ≤ b :=
  @List.min?_eq_some_iff ℤ a _ _ ⟨by intro a b h1 h2; exact le_antisymm h1 h2⟩
    (fun a => le_refl a) min_choice (fun _ _ _ => le_min_iff) xs

theorem sorted_cons (a : Int × ℚ) (t : List (Int × ℚ)) (h : SortedDates (a :: t)) :
    SortedDates t ∧ ∀ q ∈ t, a.1 < q.1 := by
  induction t generalizing a with
  | nil => exact ⟨List.chain'_nil, by simp⟩
  | cons b t ih =>
    obtain ⟨hab, hbt⟩ := List.chain'_cons.mp h
    refine ⟨hbt, ?_⟩
    intro q hq
    rcases List.mem_cons.mp hq with rfl | hq
    · exact hab
    · exact lt_trans hab ((ih b hbt).2 q hq)

theorem sorted_le_getLast :
    ∀ (s : List (Int × ℚ)), SortedDates s → ∀ (hne : s ≠ []),
      ∀ p ∈ s, p.1 ≤ (s.getLast hne).1 := by
  intro s
  induction s with
  | nil => intro _ hne; exact absurd rfl hne
  | cons a t ih =>
    intro h hne p hp
    cases t with
    | nil =>
      rcases List.mem_cons.mp hp with rfl | hp
      · simp [List.getLast]
      · simp at hp
    | cons b t2 =>
      have hct := sorted_cons a (b :: t2) h
      have hLeq : (a :: b :: t2).getLast hne = (b :: t2).getLast (by simp) :=
        List.getLast_cons (by simp)
      rcases List.mem_cons.mp hp with rfl | hp
      · rw [hLeq]
        exact le_of_lt (hct.2 _ (List.getLast_mem _))
      · rw [hLeq]
        exact ih hct.1 (by simp) p hp

theorem sorted_fst_inj :
    ∀ (s : List (Int × ℚ)), SortedDates s →
      ∀ p ∈ s, ∀ q ∈ s, p.1 = q.1 → p = q := by
  intro s
  induction s with
  | nil => intro _ p hp; simp at hp
  | cons a t ih =>
    intro h p hp q hq heq
    have hct := sorted_cons a t h
    rcases List.mem_cons.mp hp with hpa | hpt
    · rcases List.mem_cons.mp hq with hqa | hqt
      · rw [hpa, hqa]
      · rw [hpa] at heq
        exact absurd heq (ne_of_lt (hct.2 q hqt))
    · rcases List.mem_cons.mp hq with hqa | hqt
      · rw [hqa] at heq
        exact absurd heq (ne_of_gt (hct.2 p hpt))
      · exact ih hct.1 p hpt q hqt heq

theorem sorted_filter {s : List (Int × ℚ)} (h : SortedDates s) (f : (Int × ℚ) → Bool) :
    SortedDates (s.filter f) :=
  List.Chain'.sublist h (List.filter_sublist s)

/-- Characterisation of the code's past-price selection
(`series.loc[:target_date].tail(1)`, a filter-then-last on a date-ascending
index): it returns exactly the entry at the latest date at or before the
target. -/
theorem getLast_filter_le_char {s : List (Int × ℚ)} (hsort : SortedDates s)
    (target : ℤ) (p : Int × ℚ) :
    (s.filter (fun q => decide (q.1 ≤ target))).getLast? = some p ↔
      (p ∈ s ∧ p.1 ≤ target ∧ ∀ q ∈ s, q.1 ≤ target → q.1 ≤ p.1) := by
  constructor
  · intro hgl
    have hne : s.filter (fun q => decide (q.1 ≤ target)) ≠ [] := by
      intro hnil
      rw [hnil] at hgl
      simp at hgl
    have hpeq : p = (s.filter (fun q => decide (q.1 ≤ target))).getLast hne := by
      have hg := List.getLast?_eq_getLast (s.filter (fun q => decide (q.1 ≤ target))) hne
      rw [hg] at hgl
      exact (Option.some_inj.mp hgl).symm
    have hmemf : p ∈ s.filter (fun q => decide (q.1 ≤ target)) := by
      rw [hpeq]
      exact List.getLast_mem hne
    have hmem := (List.mem_filter.mp hmemf).1
    have hle : p.1 ≤ target := by simpa using (List.mem_filter.mp hmemf).2
    refine ⟨hmem, hle, ?_⟩
    intro q hq hqle
    have hqf : q ∈ s.filter (fun q => decide (q.1 ≤ target)) :=
      List.mem_filter.mpr ⟨hq, by simpa using hqle⟩
    have hres := sorted_le_getLast _ (sorted_filter hsort _) hne q hqf
    rw [hpeq]
    exact hres
  · rintro ⟨hmem, hle, hmax⟩
    have hpf : p ∈ s.filter (fun q => decide (q.1 ≤ target)) :=
      List.mem_filter.mpr ⟨hmem, by simpa using hle⟩
    have hne : s.filter (fun q => decide (q.1 ≤ target)) ≠ [] :=
      List.ne_nil_of_mem hpf
    have hgl : (s.filter (fun q => decide (q.1 ≤ target))).getLast? =
        some ((s.filter (fun q => decide (q.1 ≤ target))).getLast hne) :=
      List.getLast?_eq_getLast _ hne
    have hgmemf := List.getLast_mem hne
    have hgmem := (List.mem_filter.mp hgmemf).1
    have hgle : ((s.filter (fun q => decide (q.1 ≤ target))).getLast hne).1 ≤ target := by
      simpa using (List.mem_filter.mp hgmemf).2
    have h1 := hmax _ hgmem hgle
    have h2 := sorted_le_getLast _ (sorted_filter hsort _) hne p hpf
    have hpg : p = (s.filter (fun q => decide (q.1 ≤ target))).getLast hne :=
      sorted_fst_inj s hsort p hmem _ hgmem (le_antisymm h2 h1)
    rw [hgl, ← hpg]

/-- The code's `series.loc[last_date]` lookup succeeds: some entry carries
the maximum date. -/
theorem find?_max_entry {s : List (Int × ℚ)} {mx : ℤ}
    (hmx : (s.map Prod.fst).max? = some mx) :
    ∃ e, s.find? (fun p => decide (p.1 = mx)) = some e ∧ e ∈ s ∧ e.1 = mx := by
  have hmem : mx ∈ s.map Prod.fst := (int_max?_eq_some_iff.mp hmx).1
  obtain ⟨e, he, heq⟩ := List.mem_map.mp hmem
  have hsome : (s.find? (fun p => decide (p.1 = mx))).isSome :=
    List.find?_isSome.mpr ⟨e, he, by simpa using heq⟩
  obtain ⟨f, hf⟩ := Option.isSome_iff_exists.mp hsome
  exact ⟨f, hf, List.mem_of_find?_eq_some hf, by simpa using List.find?_some hf⟩

/-- Evaluation of `computeReturn` once the three lookups are known. -/
theorem computeReturn_eq {series : List (Int × Option ℚ)} {d : ℕ} {mx : ℤ}
    {past lastE : Int × ℚ}
    (hmx : ((dropna series).map Prod.fst).max? = some mx)
    (hpast : ((dropna series).filter
        (fun p => decide (p.1 ≤ mx - (d : ℤ)))).getLast? = some past)
    (hlast : (dropna series).find? (fun p => decide (p.1 = mx)) = some lastE) :
    computeReturn series d =
      if past.2 = 0 then none else some (lastE.2 / past.2 - 1) := by
  unfold computeReturn
  simp only [hmx, hpast, hlast]

theorem rowsMcap_pos {fi : FastInfo} {c : ℚ} (h : rowsMcap fi = some c) : 0 < c := by
  simp only [rowsMcap] at h
  split at h
  · split at h
    · rename_i hpos
      cases h
      exact hpos
    · cases h
  · cases h

theorem foldl_max_abs_le (rs : List ℚ) (acc : ℚ) :
    acc ≤ rs.foldl (fun a r => max a |r|) acc ∧
      ∀ r ∈ rs, |r| ≤ rs.foldl (fun a r => max a |r|) acc := by
  induction rs generalizing acc with
  | nil => exact ⟨le_refl _, by simp⟩
  | cons x t ih =>
    obtain ⟨h1, h2⟩ := ih (max acc |x|)
    refine ⟨le_trans (le_max_left _ _) h1, ?_⟩
    intro r hr
    rcases List.mem_cons.mp hr with rfl | hr
    · exact le_trans (le_max_right _ _) h1
    · exact h2 r hr

theorem foldl_max_abs_attained (rs : List ℚ) (acc : ℚ) :
    rs.foldl (fun a r => max a |r|) acc = acc ∨
      ∃ r ∈ rs, rs.foldl (fun a r => max a |r|) acc = |r| := by
  induction rs generalizing acc with
  | nil => exact Or.inl rfl
  | cons x t ih =>
    rcases ih (max acc |x|) with h | ⟨r, hr, heq⟩
    · rcases max_choice acc |x| with hm | hm
      · left
        rw [List.foldl_cons, h, hm]
      · right
        exact ⟨x, List.mem_cons_self x t, by rw [List.foldl_cons, h, hm]⟩
    · right
      exact ⟨r, List.mem_cons_of_mem _ hr, by rw [List.foldl_cons]; exact heq⟩

/-! ## Claim theorems -/

/-- C9: `compute_return` is a pure, deterministic function: two calls on
equal inputs yield equal results; no hidden state influences the output (the
embedding is a function of the series and the lookback alone). -/
theorem compute_return_deterministic (s₁ s₂ : List (Int × Option ℚ)) (d₁ d₂ : ℕ)
    (hs : s₁ = s₂) (hd : d₁ = d₂) :
    computeReturn s₁ d₁ = computeReturn s₂ d₂ := by
  rw [hs, hd]

theorem compute_return_deterministic_witness :
    computeReturn [((0 : ℤ), some (1 : ℚ))] 1 = computeReturn [((0 : ℤ), some (1 : ℚ))] 1 :=
  compute_return_deterministic [((0 : ℤ), some (1 : ℚ))] [((0 : ℤ), some (1 : ℚ))] 1 1 rfl rfl

/-- C8: the request shows the empty-state message (and stops before any
chart or table is produced) exactly when zero instruments survive
filtering. -/
theorem empty_result_message (ds : List FetchedSymbol) (lb : ℕ) :
    render ds lb = RenderOutcome.emptyMessage ↔ validRows ds lb = [] := by
  unfold render
  by_cases h : (validRows ds lb).isEmpty
  · simp [h, List.isEmpty_iff.mp h]
  · have : validRows ds lb ≠ [] := by
      intro hnil
      rw [hnil] at h
      simp at h
    simp [h, this]

/-- C6: on the series [(d−40, 100), (d−10, 110), (d, 121)] with a 30-day
lookback, the selected past price is the close at d−40 (value 100) and the
computed return is exactly 0.21. -/
theorem compute_return_example_one (d : ℤ) :
    ((dropna [(d - 40, some 100), (d - 10, some 110), (d, some 121)]).filter
        (fun p => decide (p.1 ≤ d - 30))).getLast? = some (d - 40, 100) ∧
      computeReturn [(d - 40, some 100), (d - 10, some 110), (d, some 121)] 30 =
        some (21 / 100) := by
  have hdrop : dropna [(d - 40, some 100), (d - 10, some 110), (d, some 121)]
      = [(d - 40, 100), (d - 10, 110), (d, 121)] := rfl
  have c1 : d - 40 ≤ d - 30 := by omega
  have c2 : ¬(d - 10 ≤ d - 30) := by omega
  have c3 : ¬(d ≤ d - 30) := by omega
  have hfil : (([(d - 40, 100), (d - 10, 110), (d, 121)] : List (Int × ℚ)).filter
      (fun p => decide (p.1 ≤ d - 30))) = [(d - 40, 100)] := by
    simp [List.filter, c1, c2, c3]
  have e1 : max (d - 40) (d - 10) = d - 10 := max_eq_right (by omega)
  have e2 : max (d - 10) d = d := max_eq_right (by omega)
  have hmax : (([(d - 40, 100), (d - 10, 110), (d, 121)] : List (Int × ℚ)).map
      Prod.fst).max? = some d := by
    simp [List.max?, e1, e2]
  have c4 : ¬(d - 40 = d) := by omega
  have c5 : ¬(d - 10 = d) := by omega
  have hfind : (([(d - 40, 100), (d - 10, 110), (d, 121)] : List (Int × ℚ)).find?
      (fun p => decide (p.1 = d))) = some (d, 121) := by
    simp [List.find?, c4, c5]
  constructor
  · rw [hdrop, hfil]
    rfl
  · have hmx2 : ((dropna [(d - 40, some 100), (d - 10, some 110), (d, some 121)]).map
        Prod.fst).max? = some d := by rw [hdrop]; exact hmax
    have hpast2 : ((dropna [(d - 40, some 100), (d - 10, some 110), (d, some 121)]).filter
        (fun p => decide (p.1 ≤ d - ((30 : ℕ) : ℤ)))).getLast? = some (d - 40, 100) := by
      rw [hdrop]
      simp only [Nat.cast_ofNat]
      rw [hfil]
      rfl
    have hlast2 : (dropna [(d - 40, some 100), (d - 10, some 110), (d, some 121)]).find?
        (fun p => decide (p.1 = d)) = some (d, 121) := by
      rw [hdrop]
      exact hfind
    rw [computeReturn_eq hmx2 hpast2 hlast2]
    norm_num

/-- C3 counterexample: with a fast market cap of −1 (present but not
positive) and an info market cap of 100, the claimed resolution order yields
100 while the code yields unavailable — a present negative value at an
earlier step does stop the later fallbacks. -/
theorem market_cap_order_cex :
    specMarketCap ⟨some (-1), none, none⟩ ⟨some 100, none, none⟩ = some 100 ∧
      resolvedCap ⟨some (-1), none, none⟩ ⟨some 100, none, none⟩ = none := by
  constructor <;> decide

/-- C3 (amended): market cap is resolved by trying, in order, the fast
field, the info field, and shares × last price (shares and price each taken
from the fast dictionary when present and nonzero, else from the info
fields), a step being selected when its value is present and nonzero (a
present zero or an absent value falls through to the next step); the
selected value is used only when strictly positive, otherwise the result is
unavailable without trying later steps. -/
theorem market_cap_resolution (fast : FastInfo) (extra : InfoExtra) :
    resolvedCap fast extra = amendedCap fast extra := by
  obtain ⟨fm, fs, fp⟩ := fast
  obtain ⟨em, es, ep⟩ := extra
  unfold resolvedCap fetchFastInfo rowsMcap amendedCap
  cases hfm : optTruthy fm
  · cases hem : optTruthy em
    · simp only [hfm, hem, Bool.false_eq_true, if_false]
      cases hc : optTruthy (if optTruthy fs then fs else es) &&
          optTruthy (if optTruthy fp then fp else ep)
      · simp only [hc, Bool.false_eq_true, if_false]
        cases em with
        | none => rfl
        | some c =>
          have hc0 : c = 0 := by
            by_contra hne
            simp [optTruthy, hne] at hem
          subst hc0
          simp
      · simp only [hc, if_true]
    · simp only [hfm, hem, Bool.false_eq_true, if_false, if_true]
  · simp only [hfm, if_true]

/-- C7: a symbol whose fetches all fail (close-column extraction,
`fast_info`, `.info`) never aborts the batch: every other symbol's row is
exactly what it would be alone, the failing symbol's row carries no return
and no market cap, and it is excluded from the valid set. -/
theorem per_symbol_failure_contained (pre post : List FetchedSymbol) (lb : ℕ)
    (d : FetchedSymbol) (hclose : d.closeFetch = none) (hfast : d.fastFetch = none)
    (hinfo : d.infoFetch = none) :
    assembleRows (pre ++ d :: post) lb
        = assembleRows pre lb ++ rowOf lb d :: assembleRows post lb ∧
      (rowOf lb d).ret = none ∧ (rowOf lb d).mcap = none ∧
      validRows (pre ++ d :: post) lb = validRows pre lb ++ validRows post lb := by
  have hret : (rowOf lb d).ret = none := by
    simp [rowOf, hclose, computeReturn, dropna]
  have hm : (rowOf lb d).mcap = none := by
    simp only [rowOf, hfast, hinfo, Option.getD_none]
    decide
  refine ⟨by simp [assembleRows], hret, hm, ?_⟩
  simp only [validRows, assembleRows, List.map_append, List.map_cons, List.filter_append,
    List.filter_cons]
  rw [hret]
  simp

theorem per_symbol_failure_contained_witness :
    assembleRows ([sampleSymbol] ++ failedSymbol :: []) 30
        = assembleRows [sampleSymbol] 30 ++ rowOf 30 failedSymbol :: assembleRows [] 30 ∧
      (rowOf 30 failedSymbol).ret = none ∧ (rowOf 30 failedSymbol).mcap = none ∧
      validRows ([sampleSymbol] ++ failedSymbol :: []) 30
        = validRows [sampleSymbol] 30 ++ validRows [] 30 :=
  per_symbol_failure_contained [sampleSymbol] [] 30 failedSymbol rfl rfl rfl

/-- C4: a row of the assembled dataset survives the filter exactly when its
return is present and its market cap is present and strictly positive: no
emitted row has an unavailable return or a market cap at or below zero. -/
theorem display_rows_invariant (ds : List FetchedSymbol) (lb : ℕ) (r : Row)
    (hr : r ∈ assembleRows ds lb) :
    r ∈ validRows ds lb ↔ ((∃ v, r.ret = some v) ∧ ∃ c, r.mcap = some c ∧ 0 < c) := by
  have hmcap_pos : ∀ c : ℚ, r.mcap = some c → 0 < c := by
    obtain ⟨dsym, hdmem, hdr⟩ := List.mem_map.mp hr
    subst hdr
    intro c hc
    exact rowsMcap_pos hc
  constructor
  · intro hv
    obtain ⟨-, hcond⟩ := List.mem_filter.mp hv
    simp only [Bool.and_eq_true, Option.isSome_iff_exists] at hcond
    obtain ⟨⟨v, hvr⟩, ⟨c, hcr⟩⟩ := hcond
    exact ⟨⟨v, hvr⟩, ⟨c, hcr, hmcap_pos c hcr⟩⟩
  · rintro ⟨⟨v, hvr⟩, ⟨c, hcr, -⟩⟩
    exact List.mem_filter.mpr ⟨hr, by simp [hvr, hcr]⟩

theorem display_rows_invariant_witness :
    rowOf 0 sampleSymbol ∈ validRows [sampleSymbol] 0 ↔
      ((∃ v, (rowOf 0 sampleSymbol).ret = some v) ∧
        ∃ c, (rowOf 0 sampleSymbol).mcap = some c ∧ 0 < c) :=
  display_rows_invariant [sampleSymbol] 0 (rowOf 0 sampleSymbol)
    (List.mem_singleton.mpr rfl)

/-- C5: over a non-empty set of included rows, the color-scale bound is the
maximum absolute return when that maximum is nonzero (and the maximum is
attained by some included row), is the 0.01 floor when the maximum is zero,
and in either case is positive and at least every included absolute
return. -/
theorem scale_bound_props (ds : List FetchedSymbol) (lb : ℕ)
    (hne : validRows ds lb ≠ []) :
    (maxAbsReturn (validReturns ds lb) ≠ 0 →
      colorBound (validReturns ds lb) = maxAbsReturn (validReturns ds lb) ∧
        ∃ r ∈ validReturns ds lb, |r| = maxAbsReturn (validReturns ds lb)) ∧
      (maxAbsReturn (validReturns ds lb) = 0 →
        colorBound (validReturns ds lb) = 1 / 100) ∧
      0 < colorBound (validReturns ds lb) ∧
      ∀ r ∈ validReturns ds lb, |r| ≤ colorBound (validReturns ds lb) := by
  have hm0 : 0 ≤ maxAbsReturn (validReturns ds lb) :=
    (foldl_max_abs_le (validReturns ds lb) 0).1
  have hub : ∀ r ∈ validReturns ds lb, |r| ≤ maxAbsReturn (validReturns ds lb) :=
    (foldl_max_abs_le (validReturns ds lb) 0).2
  have hat : maxAbsReturn (validReturns ds lb) = 0 ∨
      ∃ r ∈ validReturns ds lb, maxAbsReturn (validReturns ds lb) = |r| :=
    foldl_max_abs_attained (validReturns ds lb) 0
  refine ⟨?_, ?_, ?_, ?_⟩
  · intro hnz
    have hcb : colorBound (validReturns ds lb) = maxAbsReturn (validReturns ds lb) := by
      unfold colorBound
      rw [if_neg hnz]
    refine ⟨hcb, ?_⟩
    rcases hat with h | ⟨r, hr, heq⟩
    · exact absurd h hnz
    · exact ⟨r, hr, heq.symm⟩
  · intro hz
    unfold colorBound
    rw [if_pos hz]
  · by_cases hz : maxAbsReturn (validReturns ds lb) = 0
    · unfold colorBound
      rw [if_pos hz]
      norm_num
    · unfold colorBound
      rw [if_neg hz]
      exact lt_of_le_of_ne hm0 (Ne.symm hz)
  · intro r hr
    have hrm := hub r hr
    by_cases hz : maxAbsReturn (validReturns ds lb) = 0
    · unfold colorBound
      rw [if_pos hz]
      rw [hz] at hrm
      linarith
    · unfold colorBound
      rw [if_neg hz]
      exact hrm

theorem scale_bound_props_witness :
    (maxAbsReturn (validReturns [sampleSymbol] 0) ≠ 0 →
      colorBound (validReturns [sampleSymbol] 0) = maxAbsReturn (validReturns [sampleSymbol] 0) ∧
        ∃ r ∈ validReturns [sampleSymbol] 0, |r| = maxAbsReturn (validReturns [sampleSymbol] 0)) ∧
      (maxAbsReturn (validReturns [sampleSymbol] 0) = 0 →
        colorBound (validReturns [sampleSymbol] 0) = 1 / 100) ∧
      0 < colorBound (validReturns [sampleSymbol] 0) ∧
      ∀ r ∈ validReturns [sampleSymbol] 0, |r| ≤ colorBound (validReturns [sampleSymbol] 0) :=
  scale_bound_props [sampleSymbol] 0 (by decide)

/-- C1: on a price series of at least two points with strictly ascending
dates and positive closes whose earliest date is at or before
`target = last date − lookback`, `compute_return` returns exactly
`last/past − 1`, where `last` is the close at the maximum date and `past`
the close at the latest date at or before the target. -/
theorem compute_return_formula (s : List (Int × ℚ)) (d : ℕ)
    (hsort : SortedDates s) (hlen : 2 ≤ s.length) (hpos : ∀ p ∈ s, 0 < p.2)
    (mx : ℤ) (hmx : (s.map Prod.fst).max? = some mx)
    (hrange : ∃ p ∈ s, p.1 ≤ mx - (d : ℤ)) :
    ∃ lastP pastP : Int × ℚ,
      lastP ∈ s ∧ lastP.1 = mx ∧
      pastP ∈ s ∧ pastP.1 ≤ mx - (d : ℤ) ∧
      (∀ q ∈ s, q.1 ≤ mx - (d : ℤ) → q.1 ≤ pastP.1) ∧
      computeReturn (liftSeries s) d = some (lastP.2 / pastP.2 - 1) := by
  have hds : dropna (liftSeries s) = s := dropna_liftSeries s
  obtain ⟨p0, hp0mem, hp0le⟩ := hrange
  have hfne : s.filter (fun q => decide (q.1 ≤ mx - (d : ℤ))) ≠ [] :=
    List.ne_nil_of_mem (List.mem_filter.mpr ⟨hp0mem, by simpa using hp0le⟩)
  obtain ⟨pastP, hpast⟩ :
      ∃ p, (s.filter (fun q => decide (q.1 ≤ mx - (d : ℤ)))).getLast? = some p := by
    cases hg : (s.filter (fun q => decide (q.1 ≤ mx - (d : ℤ)))).getLast? with
    | none =>
      have := List.getLast?_isSome.mpr hfne
      rw [hg] at this
      simp at this
    | some p => exact ⟨p, rfl⟩
  obtain ⟨hpmem, hple, hpmax⟩ := (getLast_filter_le_char hsort _ pastP).mp hpast
  obtain ⟨lastE, hfind, hlmem, hldate⟩ := find?_max_entry hmx
  refine ⟨lastE, pastP, hlmem, hldate, hpmem, hple, hpmax, ?_⟩
  have hmx2 : ((dropna (liftSeries s)).map Prod.fst).max? = some mx := by
    rw [hds]
    exact hmx
  have hpast2 : ((dropna (liftSeries s)).filter
      (fun p => decide (p.1 ≤ mx - (d : ℤ)))).getLast? = some pastP := by
    rw [hds]
    exact hpast
  have hfind2 : (dropna (liftSeries s)).find? (fun p => decide (p.1 = mx)) = some lastE := by
    rw [hds]
    exact hfind
  rw [computeReturn_eq hmx2 hpast2 hfind2]
  rw [if_neg (ne_of_gt (hpos pastP hpmem))]

theorem compute_return_formula_witness :
    ∃ lastP pastP : Int × ℚ,
      lastP ∈ [((0 : ℤ), (100 : ℚ)), (10, 110)] ∧ lastP.1 = 10 ∧
      pastP ∈ [((0 : ℤ), (100 : ℚ)), (10, 110)] ∧ pastP.1 ≤ 10 - ((5 : ℕ) : ℤ) ∧
      (∀ q ∈ [((0 : ℤ), (100 : ℚ)), (10, 110)], q.1 ≤ 10 - ((5 : ℕ) : ℤ) → q.1 ≤ pastP.1) ∧
      computeReturn (liftSeries [((0 : ℤ), (100 : ℚ)), (10, 110)]) 5 =
        some (lastP.2 / pastP.2 - 1) :=
  compute_return_formula [((0 : ℤ), (100 : ℚ)), (10, 110)] 5 (by decide) (by decide)
    (by decide) 10 (by decide) ⟨(0, 100), by decide, by decide⟩

/-- C2: on a series with strictly ascending dates, `compute_return` is
unavailable exactly when the series is empty after dropping missing entries,
or its earliest date lies strictly after `target = last date − lookback`,
or the close at the latest date at or before the target is zero. -/
theorem compute_return_unavailable_iff (series : List (Int × Option ℚ)) (d : ℕ)
    (hsort : SortedDates (dropna series)) :
    computeReturn series d = none ↔
      dropna series = [] ∨
      (∃ mn mx, ((dropna series).map Prod.fst).min? = some mn ∧
        ((dropna series).map Prod.fst).max? = some mx ∧ mx - (d : ℤ) < mn) ∨
      (∃ mx past, ((dropna series).map Prod.fst).max? = some mx ∧
        past ∈ dropna series ∧ past.1 ≤ mx - (d : ℤ) ∧
        (∀ q ∈ dropna series, q.1 ≤ mx - (d : ℤ) → q.1 ≤ past.1) ∧ past.2 = 0) := by
  cases hmx : ((dropna series).map Prod.fst).max? with
  | none =>
    have hnil : dropna series = [] :=
      List.map_eq_nil_iff.mp (List.max?_eq_none_iff.mp hmx)
    constructor
    · intro _
      exact Or.inl hnil
    · intro _
      unfold computeReturn
      simp only [hmx]
  | some mx =>
    have hne : dropna series ≠ [] := by
      intro hnil
      rw [hnil] at hmx
      simp [List.max?] at hmx
    obtain ⟨lastE, hfind, hlmem, hldate⟩ := find?_max_entry hmx
    cases hpast : ((dropna series).filter
        (fun p => decide (p.1 ≤ mx - (d : ℤ)))).getLast? with
    | none =>
      have hfe : (dropna series).filter (fun p => decide (p.1 ≤ mx - (d : ℤ))) = [] := by
        by_contra hne2
        have := List.getLast?_isSome.mpr hne2
        rw [hpast] at this
        simp at this
      have hall : ∀ q ∈ dropna series, ¬(q.1 ≤ mx - (d : ℤ)) := by
        intro q hq hle2
        have hmem2 : q ∈ (dropna series).filter (fun p => decide (p.1 ≤ mx - (d : ℤ))) :=
          List.mem_filter.mpr ⟨hq, by simpa using hle2⟩
        rw [hfe] at hmem2
        simp at hmem2
      have hlhs : computeReturn series d = none := by
        unfold computeReturn
        simp only [hmx, hpast]
      obtain ⟨mn, hmn⟩ :
          ∃ mn, ((dropna series).map Prod.fst).min? = some mn := by
        cases hmn0 : ((dropna series).map Prod.fst).min? with
        | none =>
          have := List.map_eq_nil_iff.mp (List.min?_eq_none_iff.mp hmn0)
          exact absurd this hne
        | some mn => exact ⟨mn, rfl⟩
      have hmnp := int_min?_eq_some_iff.mp hmn
      obtain ⟨qmn, hqmnmem, hqmneq⟩ := List.mem_map.mp hmnp.1
      have hlt : mx - (d : ℤ) < mn := by
        by_contra hle3
        push_neg at hle3
        exact hall qmn hqmnmem (by rw [hqmneq]; exact hle3)
      simp only [hlhs, true_iff]
      exact Or.inr (Or.inl ⟨mn, mx, hmn, rfl, hlt⟩)
    | some past =>
      obtain ⟨hpmem, hple, hpmax⟩ := (getLast_filter_le_char hsort _ past).mp hpast
      rw [computeReturn_eq hmx hpast hfind]
      by_cases hz : past.2 = 0
      · rw [if_pos hz]
        simp only [true_iff]
        exact Or.inr (Or.inr ⟨mx, past, rfl, hpmem, hple, hpmax, hz⟩)
      · rw [if_neg hz]
        constructor
        · intro hcontra
          exact absurd hcontra (Option.some_ne_none _)
        · rintro (hnil | ⟨mn, mx2, hmn, hmx2, hlt⟩ |
            ⟨mx2, past2, hmx2, hp2mem, hp2le, hp2max, hp2z⟩)
          · exact absurd hnil hne
          · exfalso
            injection hmx2 with he
            subst he
            have hmnp := int_min?_eq_some_iff.mp hmn
            have hmnle : mn ≤ past.1 :=
              hmnp.2 past.1 (List.mem_map.mpr ⟨past, hpmem, rfl⟩)
            omega
          · exfalso
            injection hmx2 with he
            subst he
            have hpast2 : ((dropna series).filter
                (fun p => decide (p.1 ≤ mx - (d : ℤ)))).getLast? = some past2 :=
              (getLast_filter_le_char hsort _ past2).mpr ⟨hp2mem, hp2le, hp2max⟩
            rw [hpast] at hpast2
            injection hpast2 with he2
            rw [← he2] at hp2z
            exact hz hp2z

theorem compute_return_unavailable_iff_witness :
    computeReturn [((0 : ℤ), some (2 : ℚ)), (1, some 0)] 0 = none ↔
      dropna [((0 : ℤ), some (2 : ℚ)), (1, some 0)] = [] ∨
      (∃ mn mx, ((dropna [((0 : ℤ), some (2 : ℚ)), (1, some 0)]).map Prod.fst).min? = some mn ∧
        ((dropna [((0 : ℤ), some (2 : ℚ)), (1, some 0)]).map Prod.fst).max? = some mx ∧
        mx - ((0 : ℕ) : ℤ) < mn) ∨
      (∃ mx past, ((dropna [((0 : ℤ), some (2 : ℚ)), (1, some 0)]).map Prod.fst).max? = some mx ∧
        past ∈ dropna [((0 : ℤ), some (2 : ℚ)), (1, some 0)] ∧
        past.1 ≤ mx - ((0 : ℕ) : ℤ) ∧
        (∀ q ∈ dropna [((0 : ℤ), some (2 : ℚ)), (1, some 0)],
          q.1 ≤ mx - ((0 : ℕ) : ℤ) → q.1 ≤ past.1) ∧ past.2 = 0) :=
  compute_return_unavailable_iff [((0 : ℤ), some (2 : ℚ)), (1, some 0)] 0 (by decide)

/-- C10: with a zero-day lookback on a non-empty strictly date-ascending
series whose close at the maximum date is nonzero, `compute_return` returns
exactly 0: the target date is the last date and the selected past price is
the last close itself. -/
theorem compute_return_zero_lookback (s : List (Int × ℚ)) (hsort : SortedDates s)
    (hne : s ≠ []) (mx : ℤ) (hmx : (s.map Prod.fst).max? = some mx)
    (hlast : ∀ p ∈ s, p.1 = mx → p.2 ≠ 0) :
    computeReturn (liftSeries s) 0 = some 0 := by
  have hds : dropna (liftSeries s) = s := dropna_liftSeries s
  obtain ⟨lastE, hfind, hlmem, hldate⟩ := find?_max_entry hmx
  have hmxall := (int_max?_eq_some_iff.mp hmx).2
  have hchar : (s.filter (fun q => decide (q.1 ≤ mx - ((0 : ℕ) : ℤ)))).getLast? =
      some lastE := by
    apply (getLast_filter_le_char hsort _ lastE).mpr
    refine ⟨hlmem, ?_, ?_⟩
    · rw [hldate]
      simp
    · intro q hq hle2
      rw [hldate]
      exact hmxall q.1 (List.mem_map.mpr ⟨q, hq, rfl⟩)
  have hmx2 : ((dropna (liftSeries s)).map Prod.fst).max? = some mx := by
    rw [hds]
    exact hmx
  have hpast2 : ((dropna (liftSeries s)).filter
      (fun p => decide (p.1 ≤ mx - ((0 : ℕ) : ℤ)))).getLast? = some lastE := by
    rw [hds]
    exact hchar
  have hfind2 : (dropna (liftSeries s)).find? (fun p => decide (p.1 = mx)) = some lastE := by
    rw [hds]
    exact hfind
  rw [computeReturn_eq hmx2 hpast2 hfind2]
  have hnz : lastE.2 ≠ 0 := hlast lastE hlmem hldate
  rw [if_neg hnz]
  rw [div_self hnz]
  norm_num

theorem compute_return_zero_lookback_witness :
    computeReturn (liftSeries [((0 : ℤ), (100 : ℚ)), (10, 110)]) 0 = some 0 :=
  compute_return_zero_lookback [((0 : ℤ), (100 : ℚ)), (10, 110)] (by decide) (by decide)
    10 (by decide) (by decide)

end StockHeatmap
